import Mathlib

/-!
Shallow embedding of the `ly2mei` converter (`ly2mei/__main__.py`): the
pitch-class decoder `do_pitch_class`, the note-block builder
`do_note_block`, the measure assembler `do_measure`, and the driver loop
that splits a source text on the bar character and numbers the measures.

Python strings are modelled as `List Char`.  The process-wide
`uuid.uuid4()` identifier allocator is modelled as a counter of type
`Nat` threaded through every function, consumed in exactly the order the
Python code calls `uuid.uuid4()`: distinct calls yield distinct values,
which is the only property the source relies on.  Exceptions are
modelled with `Except LyError`.
-/

namespace Ly2Mei

/-- Apostrophe character (octave-up mark in the source's PITCH_ENDERS
and octave scan). -/
def squote : Char := Char.ofNat 39

/-- Errors the Python code can raise while processing a measure.
`pitchClassError` is the `RuntimeError` raised by `do_pitch_class`
(carrying the offending substring); `unterminatedSlurError` is the
`RuntimeWarning` raised by `do_measure` when a slur opens while another
is still open (carrying the stripped measure text);
`attributeError` is the `AttributeError` raised when `do_measure`
dereferences `slur_active` (`None`) on a slur-end token;
`indexError` is the `IndexError` raised by `markup[0]` on an empty
pitch-class substring.  `malformedDurationError` is named in the design
spec's error taxonomy; the code never raises it (see the theorems). -/
inductive LyError
  | pitchClassError (s : String)
  | unterminatedSlurError (s : String)
  | malformedDurationError
  | attributeError
  | indexError
deriving DecidableEq, Repr

/-- The `_VALID_NOTE_LETTERS` dict: single-character pitch table. -/
def _VALID_NOTE_LETTERS (c : Char) : Option String :=
  if c = 'a' then some "A"
  else if c = 'b' then some "B"
  else if c = 'c' then some "C"
  else if c = 'd' then some "D"
  else if c = 'e' then some "E"
  else if c = 'f' then some "F"
  else if c = 'g' then some "G"
  else if c = 'r' then some "rest"
  else if c = 'R' then some "REST"
  else if c = 's' then some "space"
  else none

/-- The `_VALID_ACCIDENTALS` dict: accidental-suffix table. -/
def _VALID_ACCIDENTALS (a : String) : Option String :=
  if a = "is" then some "s"
  else if a = "es" then some "f"
  else if a = "isis" then some "ss"
  else if a = "eses" then some "ff"
  else none

/-- The `find_lowest_of` function: lowest (left-most) offset at which any
character of `these` appears in `here`; `none` when no such offset exists
(the Python function falls off the loop and returns `None`). -/
def find_lowest_of (here : List Char) (these : List Char) : Option Nat :=
  match here with
  | [] => none
  | c :: rest =>
    if c ∈ these then some 0
    else (find_lowest_of rest these).map (· + 1)

/-- Python slice `markup[:i]` where `i` is `find_lowest_of`'s result:
`markup[:None]` is the whole string; `markup[:n]` keeps the first `n`
characters. -/
def sliceTo (xs : List Char) (i : Option Nat) : List Char :=
  match i with
  | none => xs
  | some n => xs.take n

/-- Result of the single-character branch of `do_pitch_class` (the
`1 == len(markup)` branch). -/
def do_pitch_class_single (c : Char) : Except LyError (String × Option String) :=
  match _VALID_NOTE_LETTERS c with
  | some p => .ok (p, none)
  | none => .error (.pitchClassError (String.mk [c]))

/-- The `do_pitch_class` function.  On a single character it looks up
`_VALID_NOTE_LETTERS`.  On a longer string the Python code recursively
calls `do_pitch_class(markup[0])` — always the single-character branch,
written here as `do_pitch_class_single` (see
`do_pitch_class_singleton`) — takes element 0 of the result as `letter`,
and interprets the rest as the accidental suffix.  Note the irregular
branch compares `letter` (the recursion's result, e.g. `"A"`) against
the lowercase strings `"a"` and `"e"`, exactly as the source does.
On the empty string the Python code evaluates `markup[0]` and raises
`IndexError`. -/
def do_pitch_class : List Char → Except LyError (String × Option String)
  | [] => .error .indexError
  | [c] => do_pitch_class_single c
  | c :: c2 :: rest =>
    match do_pitch_class_single c with
    | .error e => .error e
    | .ok (letter, _) =>
      let accid := String.mk (c2 :: rest)
      if accid = "s" ∧ (letter = "a" ∨ letter = "e") then .ok (letter, some "s")
      else match _VALID_ACCIDENTALS accid with
        | some a => .ok (letter, some a)
        | none => .error (.pitchClassError (String.mk (c :: c2 :: rest)))

/-- The displayed accidental computed in `do_note_block`'s first loop:
either the string assigned on `!` (the `@accid` attribute) or the
cautionary `<accid func="caution">` sub-element created on `?`. -/
inductive AccidDisplay
  | attr (v : String)
  | cautionElem (v : String)
deriving DecidableEq, Repr

/-- Python `accid_ges if accid_ges is not None else 'n'`. -/
def accidOrNatural (g : Option String) : String :=
  match g with
  | some a => a
  | none => "n"

/-- The `PITCH_ENDERS` tuple of `do_note_block`. -/
def PITCH_ENDERS : List Char := [',', squote, '1', '2', '4', '8', '!', '?']

/-- First loop of `do_note_block` (`for i in range(1, len(markup))`),
run here on `markup.drop 1`.  Returns the octave, the displayed
accidental, and — in place of the loop's `stopped_at` index — the
suffix of `markup` starting at the first digit when the loop breaks
(`some suffix`), or `none` when the loop runs off the end and
`stopped_at` keeps its initial value `0`. -/
def octaveLoop (accid_ges : Option String) :
    List Char → Int → Option AccidDisplay → Int × Option AccidDisplay × Option (List Char)
  | [], octave, accid => (octave, accid, none)
  | c :: rest, octave, accid =>
    if c.isDigit then (octave, accid, some (c :: rest))
    else if c = ',' then octaveLoop accid_ges rest (octave - 1) accid
    else if c = squote then octaveLoop accid_ges rest (octave + 1) accid
    else if c = '!' then octaveLoop accid_ges rest octave (some (.attr (accidOrNatural accid_ges)))
    else if c = '?' then
      octaveLoop accid_ges rest octave (some (.cautionElem (accidOrNatural accid_ges)))
    else octaveLoop accid_ges rest octave accid

/-- Second loop of `do_note_block` (`for i in range(stopped_at, len(markup))`):
accumulate consecutive digits, stop at the first non-digit. -/
def durLoop : List Char → List Char → List Char
  | [], dur => dur
  | c :: rest, dur => if c.isDigit then durLoop rest (dur ++ [c]) else dur

/-- The `<note>` element built by `do_note_block`: `@pname`, `@dur`,
`@oct`, `@xml:id`, optional `@accid.ges`, optional displayed accidental,
optional `@slur`. -/
structure NoteElem where
  pname : String
  dur : String
  oct : Int
  id : Nat
  accid_ges : Option String
  accid : Option AccidDisplay
  slur : Option String
deriving DecidableEq, Repr

/-- The `do_note_block` function: split the token into pitch-class /
octave-marks / duration regions, decode the pitch class, and build the
note element.  The counter `ctr` stands for the `uuid.uuid4()` allocator;
the note consumes one identifier. -/
def do_note_block (markup : List Char) (ctr : Nat) : Except LyError (NoteElem × Nat) :=
  match do_pitch_class (sliceTo markup (find_lowest_of markup PITCH_ENDERS)) with
  | .error e => .error e
  | .ok (pname, accid_ges) =>
    let r := octaveLoop accid_ges (markup.drop 1) 3 none
    let durFrom := match r.2.2 with
      | some suffix => suffix
      | none => markup
    let dur := durLoop durFrom []
    let slur : Option String :=
      if '(' ∈ markup then some "i1"
      else if ')' ∈ markup then some "t1"
      else none
    .ok (⟨pname, String.mk dur, r.1, ctr, accid_ges, r.2.1, slur⟩, ctr + 1)

/-- The `<slur>` element appended on slur closure: its own `@xml:id`,
and the identifiers of the start and end notes (the raw values the code
reads back with `elem.get(_XMLID)`). -/
structure SlurElem where
  id : Nat
  startid : Nat
  endid : Nat
deriving DecidableEq, Repr

/-- String value the code stores in the slur's `@startid` attribute:
`elem.get(_XMLID)`, i.e. the bare identifier string of the start note. -/
def SlurElem.startidAttr (s : SlurElem) : String := toString s.startid

/-- String value the code stores in the slur's `@endid` attribute. -/
def SlurElem.endidAttr (s : SlurElem) : String := toString s.endid

/-- Modelled from the spec: slur start-references are "by reference,
i.e. `#<id>` string form" — the start note's identifier preceded by a
hash sign.  Compared against `SlurElem.startidAttr`, the value the code
actually stores. -/
def spec_startidAttr (s : SlurElem) : String := "#" ++ toString s.startid

/-- One child of the measure's `<layer>`: a note or a (closed) slur, in
emission order. -/
inductive LayerChild
  | note (n : NoteElem)
  | slur (s : SlurElem)
deriving DecidableEq, Repr

/-- Python `str.split()` with no argument: split on runs of whitespace,
dropping empty pieces. -/
def pySplitAux : List Char → List Char → List (List Char)
  | [], acc => if acc = [] then [] else [acc.reverse]
  | c :: rest, acc =>
    if c.isWhitespace then
      if acc = [] then pySplitAux rest []
      else acc.reverse :: pySplitAux rest []
    else pySplitAux rest (c :: acc)

/-- Python `markup.split()`. -/
def pySplit (s : List Char) : List (List Char) := pySplitAux s []

/-- Python `markup.strip()`: drop leading and trailing whitespace. -/
def pyStrip (s : List Char) : List Char :=
  ((s.dropWhile Char.isWhitespace).reverse.dropWhile Char.isWhitespace).reverse

/-- Loop body of `do_measure`: process each token with `do_note_block`,
append the note immediately, and maintain `slur_active` — `none`, or
`some (slur identifier, start-note identifier)` for the open slur
element created on a slur-start note (the slur consumes its own
identifier at creation, exactly when the Python code calls
`uuid.uuid4()` for it).  On a slur-start note while a slur is open the
code raises its `RuntimeWarning` (the *unterminated slur* error); on a
slur-end note with no open slur the code calls `None.set(...)` and
raises `AttributeError`. -/
def measureLoop (text : List Char) :
    List (List Char) → List LayerChild → Option (Nat × Nat) → Nat →
    Except LyError (List LayerChild × Option (Nat × Nat) × Nat)
  | [], elems, slur_active, ctr => .ok (elems, slur_active, ctr)
  | t :: rest, elems, slur_active, ctr =>
    match do_note_block t ctr with
    | .error e => .error e
    | .ok (elem, ctr1) =>
      if elem.slur = some "i1" then
        match slur_active with
        | some _ => .error (.unterminatedSlurError (String.mk (pyStrip text)))
        | none => measureLoop text rest (elems ++ [.note elem]) (some (ctr1, elem.id)) (ctr1 + 1)
      else if elem.slur = some "t1" then
        match slur_active with
        | none => .error .attributeError
        | some p =>
          measureLoop text rest ((elems ++ [.note elem]) ++ [.slur ⟨p.1, p.2, elem.id⟩])
            none ctr1
      else
        measureLoop text rest (elems ++ [.note elem]) slur_active ctr1

/-- The `<measure>` element returned by `do_measure`: the layer's
children, then the identifiers of the `<layer>`, `<staff>` and
`<measure>` wrappers (allocated in that order), and the `@n` measure
number set later by the driver. -/
structure MeasureElem where
  children : List LayerChild
  layerId : Nat
  staffId : Nat
  id : Nat
  n : Option Nat
deriving DecidableEq, Repr

/-- The `do_measure` function: split the measure text on whitespace,
run the token loop, return `none` for an empty measure, otherwise wrap
the element sequence in layer/staff/measure wrappers, each taking a
fresh identifier. -/
def do_measure (markup : List Char) (ctr : Nat) :
    Except LyError (Option MeasureElem × Nat) :=
  match measureLoop markup (pySplit markup) [] none ctr with
  | .error e => .error e
  | .ok (elems, _, ctr1) =>
    if elems.length = 0 then .ok (none, ctr1)
    else .ok (some ⟨elems, ctr1, ctr1 + 1, ctr1 + 2, none⟩, ctr1 + 3)

/-- Python `source.split('|')`: split on a separator character, keeping
empty segments. -/
def pySplitOnAux (sep : Char) : List Char → List Char → List (List Char)
  | [], acc => [acc.reverse]
  | c :: rest, acc =>
    if c = sep then acc.reverse :: pySplitOnAux sep rest []
    else pySplitOnAux sep rest (c :: acc)

/-- Python `source.split('|')`. -/
def pySplitOn (sep : Char) (s : List Char) : List (List Char) := pySplitOnAux sep s []

/-- Driver loop over the segments of `source.split('|')`: call
`do_measure` on each, drop absent measures, and set `@n` to the 1-based
segment index on the kept ones. -/
def docLoop : List (List Char) → Nat → Nat → Except LyError (List MeasureElem × Nat)
  | [], _, ctr => .ok ([], ctr)
  | seg :: rest, i, ctr =>
    match do_measure seg ctr with
    | .error e => .error e
    | .ok (m?, ctr1) =>
      match docLoop rest (i + 1) ctr1 with
      | .error e => .error e
      | .ok (ms, ctrF) =>
        match m? with
        | some m => .ok (⟨m.children, m.layerId, m.staffId, m.id, some (i + 1)⟩ :: ms, ctrF)
        | none => .ok (ms, ctrF)

/-- Full document conversion as the `__main__` driver performs it:
split the source on `|` and assemble the measures.  (The section, score,
body, music and root wrappers the driver adds afterwards carry no
identifiers.) -/
def convert_document (source : List Char) (ctr : Nat) :
    Except LyError (List MeasureElem × Nat) :=
  docLoop (pySplitOn '|' source) 0 ctr

/-- Identifier of one layer child. -/
def childId : LayerChild → Nat
  | .note n => n.id
  | .slur s => s.id

/-- Identifiers of a layer-child sequence, in order. -/
def childIds (l : List LayerChild) : List Nat := l.map childId

/-- Identifiers of the note elements of a layer-child sequence. -/
def noteIds (l : List LayerChild) : List Nat :=
  l.filterMap fun c => match c with
    | .note n => some n.id
    | .slur _ => none

/-- All identifiers carried by one assembled measure: children first,
then layer, staff and measure wrapper identifiers. -/
def MeasureElem.allIds (m : MeasureElem) : List Nat :=
  childIds m.children ++ [m.layerId, m.staffId, m.id]

/-- Every identifier emitted by a full document conversion; empty when
the conversion fails. -/
def documentIds (source : List Char) (ctr : Nat) : List Nat :=
  match convert_document source ctr with
  | .ok (ms, _) => (ms.map MeasureElem.allIds).flatten
  | .error _ => []

/-- Positional slur well-formedness of a layer-child sequence: every
slur's start and end references are identifiers of notes emitted
earlier in the sequence (so a slur appears only once closed). -/
def slursClosed (l : List LayerChild) : Prop :=
  ∀ (k : Nat) (s : SlurElem), l[k]? = some (.slur s) →
    s.startid ∈ noteIds (l.take k) ∧ s.endid ∈ noteIds (l.take k)

end Ly2Mei

namespace Ly2Mei

/-- The end-to-end example measure text `a4( b'16 c,,2)`. -/
def measure8_input : List Char :=
  ['a', '4', '(', ' ', 'b', squote, '1', '6', ' ', 'c', ',', ',', '2', ')']

/-- The measure the code assembles from `measure8_input` with the
identifier counter started at 0. -/
def M8 : MeasureElem :=
  ⟨[.note ⟨"A", "4", 3, 0, none, none, some "i1"⟩,
    .note ⟨"B", "16", 4, 2, none, none, none⟩,
    .note ⟨"C", "2", 1, 3, none, none, some "t1"⟩,
    .slur ⟨1, 0, 3⟩],
   4, 5, 6, none⟩

/-- Sanity: the singleton case of `do_pitch_class` is exactly
`do_pitch_class_single`, so using the latter for the source's recursive
call `do_pitch_class(markup[0])` is faithful. -/
theorem do_pitch_class_singleton (c : Char) :
    do_pitch_class [c] = do_pitch_class_single c := rfl

/-- C1 counterexample: on the bare token `c` (duration region empty) the
code does not fail — `do_note_block` returns a `NoteElement` whose
duration is the empty string, and no `MalformedDurationError` (or any
error) is raised. -/
theorem C1_counterexample :
    do_note_block ['c'] 0 = .ok (⟨"C", "", 3, 0, none, none, none⟩, 1) := rfl

/-- C2 (code bug, evaluation): both `es` and `as` fail with a pitch-class
error, although the function's own doc examples show `do_pitch_class('es')`
returning `('E', 'f')` and the irregular-`s` branch is plainly meant to
accept them: the branch compares the recursion's uppercase result
(`"A"`, `"E"`) against the lowercase `"a"`/`"e"`, so it can never fire. -/
theorem C2_code_bug_eval :
    do_pitch_class ['e', 's'] = .error (.pitchClassError "es") ∧
    do_pitch_class ['a', 's'] = .error (.pitchClassError "as") := ⟨rfl, rfl⟩

/-- C3 (code bug, evaluation): `PITCH_ENDERS` lists only the digits
1, 2, 4, 8, so in `c32` the pitch substring is bounded at the `2` (offset
2), handing `c3` to the pitch decoder, which fails — although the module
doc whitelists durations 32 and 64. -/
theorem C3_code_bug_eval :
    find_lowest_of ['c', '3', '2'] PITCH_ENDERS = some 2 ∧
    do_note_block ['c', '3', '2'] 0 = .error (.pitchClassError "c3") := ⟨rfl, rfl⟩

/-- C4 (code bug, evaluation): the slur emitted for `a4( b'16 c,,2)`
stores the bare start-note identifier in `@startid` — not the `#`-prefixed
reference form the module doc shows — and the code sets no `plist`
attribute at all (the slur element it builds has only `@startid`,
`@xml:id` and `@endid`). -/
theorem C4_code_bug_eval :
    do_measure measure8_input 0 = .ok (some M8, 7) ∧
    M8.children[3]? = some (.slur ⟨1, 0, 3⟩) ∧
    SlurElem.startidAttr ⟨1, 0, 3⟩ ≠ spec_startidAttr ⟨1, 0, 3⟩ :=
  ⟨rfl, rfl, by decide⟩

/-- C8: processing the single measure `a4( b'16 c,,2)` yields exactly
three notes in order — A, octave 3, duration 4, slur-start `i1`; B,
octave 4 (default 3 plus one apostrophe), duration 16, no slur; C,
octave 1 (default 3 minus two commas), duration 2, slur-end `t1` —
followed by the closed slur. -/
theorem C8_end_to_end : do_measure measure8_input 0 = .ok (some M8, 7) := rfl

/-- C10: on the measure text `c4 d4)`, a slur-end token with no open
slur makes `do_measure` dereference the absent open-slur reference
(`None.set(...)` in the source), aborting with an `AttributeError` that
is none of the three specified error kinds. -/
theorem C10_none_deref :
    do_measure ['c', '4', ' ', 'd', '4', ')'] 0 = .error .attributeError ∧
    (∀ s : String, LyError.attributeError ≠ .pitchClassError s) ∧
    (∀ s : String, LyError.attributeError ≠ .unterminatedSlurError s) ∧
    LyError.attributeError ≠ .malformedDurationError :=
  ⟨rfl, fun _ => LyError.noConfusion, fun _ => LyError.noConfusion, LyError.noConfusion⟩

end Ly2Mei

namespace Ly2Mei

/-- The note built by `do_note_block` takes exactly the current counter
value as its identifier and advances the counter by one. -/
theorem do_note_block_ok {markup : List Char} {ctr : Nat} {elem : NoteElem} {ctr1 : Nat}
    (h : do_note_block markup ctr = .ok (elem, ctr1)) : elem.id = ctr ∧ ctr1 = ctr + 1 := by
  unfold do_note_block at h
  cases hp : do_pitch_class (sliceTo markup (find_lowest_of markup PITCH_ENDERS)) with
  | error e => rw [hp] at h; cases h
  | ok pr =>
    obtain ⟨pname, accid_ges⟩ := pr
    rw [hp] at h
    simp only [Except.ok.injEq, Prod.mk.injEq] at h
    obtain ⟨h1, h2⟩ := h
    subst h1
    exact ⟨rfl, h2.symm⟩

/-- The single-character branch fails only with a pitch-class error
carrying the offending character. -/
theorem do_pitch_class_single_error {c : Char} {e : LyError}
    (h : do_pitch_class_single c = .error e) : e = .pitchClassError (String.mk [c]) := by
  unfold do_pitch_class_single at h
  cases hv : _VALID_NOTE_LETTERS c with
  | none => rw [hv] at h; exact (Except.error.inj h).symm
  | some p => rw [hv] at h; cases h

/-- The pitch decoder fails only with pitch-class or index errors; in
particular it never raises the spec's `MalformedDurationError`. -/
theorem do_pitch_class_no_malformed (m : List Char) :
    do_pitch_class m ≠ .error .malformedDurationError := by
  intro h
  match m with
  | [] => cases h
  | [c] =>
    rw [do_pitch_class] at h
    have := do_pitch_class_single_error h
    cases this
  | c :: c2 :: rest =>
    rw [do_pitch_class] at h
    cases hsc : do_pitch_class_single c with
    | error e =>
      rw [hsc] at h
      have h2 := do_pitch_class_single_error hsc
      rw [h2] at h
      cases h
    | ok pr =>
      obtain ⟨letter, x⟩ := pr
      rw [hsc] at h
      dsimp only [] at h
      by_cases hif : String.mk (c2 :: rest) = "s" ∧ (letter = "a" ∨ letter = "e")
      · rw [if_pos hif] at h; cases h
      · rw [if_neg hif] at h
        cases hv : _VALID_ACCIDENTALS (String.mk (c2 :: rest)) with
        | none => rw [hv] at h; cases h
        | some a => rw [hv] at h; cases h

/-- The note-block builder never raises the spec's
`MalformedDurationError` on any input. -/
theorem do_note_block_no_malformed (markup : List Char) (ctr : Nat) :
    do_note_block markup ctr ≠ .error .malformedDurationError := by
  intro h
  unfold do_note_block at h
  cases hp : do_pitch_class (sliceTo markup (find_lowest_of markup PITCH_ENDERS)) with
  | error e =>
    rw [hp] at h
    cases h
    exact do_pitch_class_no_malformed _ hp
  | ok pr => obtain ⟨a, b⟩ := pr; rw [hp] at h; cases h

/-- When the token holds no digit the octave scan runs off the end, so
the `stopped_at` position keeps its initial value (`none` here). -/
theorem octaveLoop_no_digit (g : Option String) (l : List Char)
    (hl : ∀ c ∈ l, ¬ c.isDigit) :
    ∀ (octave : Int) (accid : Option AccidDisplay), (octaveLoop g l octave accid).2.2 = none := by
  induction l with
  | nil => intro octave accid; rfl
  | cons c rest ih =>
    intro octave accid
    have hc : ¬ c.isDigit := hl c (List.mem_cons_self c rest)
    have hrest : ∀ x ∈ rest, ¬ x.isDigit := fun x hx => hl x (List.mem_cons_of_mem c hx)
    rw [octaveLoop]
    rw [if_neg (by simpa using hc)]
    by_cases h1 : c = ','
    · rw [if_pos h1]; exact ih hrest _ _
    · rw [if_neg h1]
      by_cases h2 : c = squote
      · rw [if_pos h2]; exact ih hrest _ _
      · rw [if_neg h2]
        by_cases h3 : c = '!'
        · rw [if_pos h3]; exact ih hrest _ _
        · rw [if_neg h3]
          by_cases h4 : c = '?'
          · rw [if_pos h4]; exact ih hrest _ _
          · rw [if_neg h4]; exact ih hrest _ _

/-- The duration scan collects nothing when the first character it sees
is not a digit. -/
theorem durLoop_no_digit (l : List Char) (hl : ∀ c ∈ l, ¬ c.isDigit) :
    durLoop l [] = [] := by
  cases l with
  | nil => rfl
  | cons c rest =>
    rw [durLoop]
    rw [if_neg (by simpa using hl c (List.mem_cons_self c rest))]

end Ly2Mei

namespace Ly2Mei

/-- Identifier lists distribute over append. -/
theorem childIds_append (l m : List LayerChild) :
    childIds (l ++ m) = childIds l ++ childIds m := List.map_append _ l m

/-- Note-identifier lists distribute over append. -/
theorem noteIds_append (l m : List LayerChild) :
    noteIds (l ++ m) = noteIds l ++ noteIds m := List.filterMap_append l m _

/-- Note identifiers of a take are note identifiers of the whole list. -/
theorem noteIds_take_subset (l : List LayerChild) (k : Nat) :
    noteIds (l.take k) ⊆ noteIds l := by
  intro x hx
  rw [noteIds, List.mem_filterMap] at hx ⊢
  obtain ⟨a, ha, hfa⟩ := hx
  exact ⟨a, List.take_subset _ _ ha, hfa⟩

/-- Appending a note preserves positional slur well-formedness. -/
theorem slursClosed_append_note {l : List LayerChild} (hQ : slursClosed l) (e : NoteElem) :
    slursClosed (l ++ [.note e]) := by
  intro k s hk
  rw [List.getElem?_append] at hk
  by_cases hlt : k < l.length
  · rw [if_pos hlt] at hk
    rw [List.take_append_of_le_length (Nat.le_of_lt hlt)]
    exact hQ k s hk
  · rw [if_neg hlt] at hk
    rcases hd : k - l.length with _ | j
    · rw [hd] at hk
      simp only [List.getElem?_cons_zero, Option.some.injEq] at hk
      cases hk
    · rw [hd] at hk
      simp at hk

/-- Closing a slur — appending the end note followed by the closed slur
element whose start reference is an already-emitted note and whose end
reference is that final note — preserves positional slur
well-formedness. -/
theorem slursClosed_close {l : List LayerChild} (hQ : slursClosed l) (e : NoteElem)
    (s : SlurElem) (hst : s.startid ∈ noteIds l) (hend : s.endid = e.id) :
    slursClosed ((l ++ [.note e]) ++ [.slur s]) := by
  intro k s' hk
  rw [List.getElem?_append] at hk
  by_cases hlt : k < (l ++ [LayerChild.note e]).length
  · rw [if_pos hlt] at hk
    rw [List.take_append_of_le_length (Nat.le_of_lt hlt)]
    exact slursClosed_append_note hQ e k s' hk
  · rw [if_neg hlt] at hk
    rcases hd : k - (l ++ [LayerChild.note e]).length with _ | j
    · rw [hd] at hk
      simp only [List.getElem?_cons_zero, Option.some.injEq, LayerChild.slur.injEq] at hk
      subst hk
      have hk' : k = (l ++ [LayerChild.note e]).length := by
        have := Nat.le_of_not_lt hlt
        omega
      subst hk'
      rw [List.take_append_of_le_length (Nat.le_refl _), List.take_length]
      constructor
      · rw [noteIds_append]
        exact List.mem_append_left _ hst
      · rw [noteIds_append, hend]
        exact List.mem_append_right _ (by simp [noteIds])
    · rw [hd] at hk
      simp at hk

end Ly2Mei

namespace Ly2Mei

/-- Identifiers of the single-note sequence. -/
theorem childIds_singleton_note (e : NoteElem) : childIds [LayerChild.note e] = [e.id] := rfl

/-- Identifiers of the single-slur sequence. -/
theorem childIds_singleton_slur (s : SlurElem) : childIds [LayerChild.slur s] = [s.id] := rfl

/-- Note identifiers of the single-note sequence. -/
theorem noteIds_singleton_note (e : NoteElem) : noteIds [LayerChild.note e] = [e.id] := rfl

/-- Note identifiers of the single-slur sequence. -/
theorem noteIds_singleton_slur (s : SlurElem) : noteIds [LayerChild.slur s] = [] := rfl

/-- Invariant of the measure token loop.  Starting from a state whose
emitted identifiers are fresh below the counter and duplicate-free,
whose open slur (if any) has a fresh unemitted identifier and a
start reference to an emitted note, and whose emitted slurs are
positionally well-formed, a successful run of `measureLoop` ends in a
state with the same properties; moreover the counter never decreases
and every newly emitted identifier is at least the starting counter or
the pending open-slur identifier. -/
theorem measureLoop_inv (text : List Char) (toks : List (List Char)) :
    ∀ (elems : List LayerChild) (slur : Option (Nat × Nat)) (ctr : Nat)
      (elems' : List LayerChild) (slur' : Option (Nat × Nat)) (ctr' : Nat),
      measureLoop text toks elems slur ctr = .ok (elems', slur', ctr') →
      (∀ i ∈ childIds elems, i < ctr) →
      (childIds elems).Nodup →
      (∀ q : Nat × Nat, slur = some q → q.1 < ctr ∧ q.1 ∉ childIds elems ∧ q.2 ∈ noteIds elems) →
      slursClosed elems →
      ctr ≤ ctr' ∧
      (∀ i ∈ childIds elems', i < ctr') ∧
      (childIds elems').Nodup ∧
      (∀ q : Nat × Nat, slur' = some q →
        q.1 < ctr' ∧ q.1 ∉ childIds elems' ∧ q.2 ∈ noteIds elems') ∧
      slursClosed elems' ∧
      (∀ i ∈ childIds elems',
        i ∈ childIds elems ∨ ctr ≤ i ∨ ∃ q : Nat × Nat, slur = some q ∧ i = q.1) := by
  induction toks with
  | nil =>
    intro elems slur ctr elems' slur' ctr' h hA hB hC hD
    rw [measureLoop] at h
    simp only [Except.ok.injEq, Prod.mk.injEq] at h
    obtain ⟨h1, h2, h3⟩ := h
    subst h1; subst h2; subst h3
    exact ⟨Nat.le_refl _, hA, hB, hC, hD, fun i hi => Or.inl hi⟩
  | cons t rest ih =>
    intro elems slur ctr elems' slur' ctr' h hA hB hC hD
    rw [measureLoop] at h
    cases hnb : do_note_block t ctr with
    | error err => rw [hnb] at h; exact Except.noConfusion h
    | ok pr =>
      obtain ⟨e, ctr1⟩ := pr
      rw [hnb] at h
      obtain ⟨hid, hctr1⟩ := do_note_block_ok hnb
      subst hctr1
      dsimp only [] at h
      have hAn : ∀ i ∈ childIds (elems ++ [LayerChild.note e]), i < ctr + 1 := by
        intro i hi
        rw [childIds_append, childIds_singleton_note] at hi
        rcases List.mem_append.mp hi with hi | hi
        · exact Nat.lt_succ_of_lt (hA i hi)
        · rw [List.mem_singleton] at hi
          omega
      have hBn : (childIds (elems ++ [LayerChild.note e])).Nodup := by
        rw [childIds_append, childIds_singleton_note]
        refine List.Nodup.append hB (List.nodup_singleton _) ?_
        intro a ha hb
        rw [List.mem_singleton] at hb
        have := hA a ha
        omega
      have hNoteMem : e.id ∈ noteIds (elems ++ [LayerChild.note e]) := by
        rw [noteIds_append, noteIds_singleton_note]
        exact List.mem_append_right _ (List.mem_singleton.mpr rfl)
      have hDn := slursClosed_append_note hD e
      by_cases hs1 : e.slur = some "i1"
      · rw [if_pos hs1] at h
        cases hsl : slur with
        | some p => rw [hsl] at h; exact Except.noConfusion h
        | none =>
          rw [hsl] at h
          have hCn : ∀ q : Nat × Nat, some (ctr + 1, e.id) = some q →
              q.1 < ctr + 1 + 1 ∧ q.1 ∉ childIds (elems ++ [LayerChild.note e]) ∧
              q.2 ∈ noteIds (elems ++ [LayerChild.note e]) := by
            intro q hq
            injection hq with hq
            subst hq
            refine ⟨Nat.lt_succ_self _, ?_, hNoteMem⟩
            intro hmem
            have := hAn _ hmem
            omega
          obtain ⟨k1, k2, k3, k4, k5, k6⟩ :=
            ih (elems ++ [LayerChild.note e]) (some (ctr + 1, e.id)) (ctr + 1 + 1)
              elems' slur' ctr' h (fun i hi => Nat.lt_succ_of_lt (hAn i hi)) hBn hCn hDn
          refine ⟨by omega, k2, k3, k4, k5, ?_⟩
          intro i hi
          rcases k6 i hi with hmem | hge | hq
          · rw [childIds_append, childIds_singleton_note] at hmem
            rcases List.mem_append.mp hmem with h' | h'
            · exact Or.inl h'
            · rw [List.mem_singleton] at h'
              right; left; omega
          · right; left; omega
          · obtain ⟨q, hq1, hq2⟩ := hq
            injection hq1 with hq1
            subst hq1
            right; left
            simp only [hq2]
            omega
      · rw [if_neg hs1] at h
        by_cases hs2 : e.slur = some "t1"
        · rw [if_pos hs2] at h
          cases hsl : slur with
          | none => rw [hsl] at h; exact Except.noConfusion h
          | some p =>
            rw [hsl] at h
            obtain ⟨hp1, hp2, hp3⟩ := hC p hsl
            have hA2 : ∀ i ∈ childIds ((elems ++ [LayerChild.note e]) ++
                [LayerChild.slur ⟨p.1, p.2, e.id⟩]), i < ctr + 1 := by
              intro i hi
              rw [childIds_append, childIds_singleton_slur] at hi
              rcases List.mem_append.mp hi with hi | hi
              · exact hAn i hi
              · rw [List.mem_singleton] at hi
                subst hi
                exact Nat.lt_succ_of_lt hp1
            have hB2 : (childIds ((elems ++ [LayerChild.note e]) ++
                [LayerChild.slur ⟨p.1, p.2, e.id⟩])).Nodup := by
              rw [childIds_append, childIds_singleton_slur]
              refine List.Nodup.append hBn (List.nodup_singleton _) ?_
              intro a ha hb
              rw [List.mem_singleton] at hb
              subst hb
              rw [childIds_append, childIds_singleton_note] at ha
              rcases List.mem_append.mp ha with h' | h'
              · exact hp2 h'
              · rw [List.mem_singleton] at h'
                have h2 : p.1 = e.id := h'
                omega
            have hD2 : slursClosed ((elems ++ [LayerChild.note e]) ++
                [LayerChild.slur ⟨p.1, p.2, e.id⟩]) :=
              slursClosed_close hD e ⟨p.1, p.2, e.id⟩ hp3 rfl
            obtain ⟨k1, k2, k3, k4, k5, k6⟩ :=
              ih ((elems ++ [LayerChild.note e]) ++ [LayerChild.slur ⟨p.1, p.2, e.id⟩])
                none (ctr + 1) elems' slur' ctr' h hA2 hB2
                (fun q hq => Option.noConfusion hq) hD2
            refine ⟨by omega, k2, k3, k4, k5, ?_⟩
            intro i hi
            rcases k6 i hi with hmem | hge | hq
            · rw [childIds_append, childIds_singleton_slur] at hmem
              rcases List.mem_append.mp hmem with h' | h'
              · rw [childIds_append, childIds_singleton_note] at h'
                rcases List.mem_append.mp h' with h'' | h''
                · exact Or.inl h''
                · rw [List.mem_singleton] at h''
                  right; left; omega
              · rw [List.mem_singleton] at h'
                right; right
                exact ⟨p, rfl, h'⟩
            · right; left; omega
            · obtain ⟨q, hq1, hq2⟩ := hq
              exact Option.noConfusion hq1
        · rw [if_neg hs2] at h
          have hCe : ∀ q : Nat × Nat, slur = some q → q.1 < ctr + 1 ∧
              q.1 ∉ childIds (elems ++ [LayerChild.note e]) ∧
              q.2 ∈ noteIds (elems ++ [LayerChild.note e]) := by
            intro q hq
            obtain ⟨hq1, hq2, hq3⟩ := hC q hq
            refine ⟨Nat.lt_succ_of_lt hq1, ?_, ?_⟩
            · intro hmem
              rw [childIds_append, childIds_singleton_note] at hmem
              rcases List.mem_append.mp hmem with h' | h'
              · exact hq2 h'
              · rw [List.mem_singleton] at h'
                omega
            · rw [noteIds_append]
              exact List.mem_append_left _ hq3
          obtain ⟨k1, k2, k3, k4, k5, k6⟩ :=
            ih (elems ++ [LayerChild.note e]) slur (ctr + 1) elems' slur' ctr' h
              hAn hBn hCe hDn
          refine ⟨by omega, k2, k3, k4, k5, ?_⟩
          intro i hi
          rcases k6 i hi with hmem | hge | hq
          · rw [childIds_append, childIds_singleton_note] at hmem
            rcases List.mem_append.mp hmem with h' | h'
            · exact Or.inl h'
            · rw [List.mem_singleton] at h'
              right; left; omega
          · right; left; omega
          · exact Or.inr (Or.inr hq)

end Ly2Mei

namespace Ly2Mei

/-- A successfully assembled measure carries pairwise-distinct
identifiers, all allocated inside the counter window of its own run,
and its slurs are positionally well-formed. -/
theorem do_measure_inv (markup : List Char) (ctr : Nat) (m : MeasureElem) (ctr' : Nat)
    (h : do_measure markup ctr = .ok (some m, ctr')) :
    ctr ≤ ctr' ∧ (∀ i ∈ m.allIds, ctr ≤ i ∧ i < ctr') ∧ m.allIds.Nodup ∧
      slursClosed m.children := by
  unfold do_measure at h
  cases hml : measureLoop markup (pySplit markup) [] none ctr with
  | error e => rw [hml] at h; exact Except.noConfusion h
  | ok r =>
    obtain ⟨elems, slur1, c1⟩ := r
    rw [hml] at h
    dsimp only [] at h
    obtain ⟨k1, k2, k3, k4, k5, k6⟩ :=
      measureLoop_inv markup (pySplit markup) [] none ctr elems slur1 c1 hml
        (by intro i hi; simp [childIds] at hi) List.nodup_nil
        (fun q hq => Option.noConfusion hq)
        (by intro k s hk; simp at hk)
    by_cases hlen : elems.length = 0
    · rw [if_pos hlen] at h
      simp only [Except.ok.injEq, Prod.mk.injEq] at h
      exact absurd h.1 (by simp)
    · rw [if_neg hlen] at h
      simp only [Except.ok.injEq, Prod.mk.injEq, Option.some.injEq] at h
      obtain ⟨hm, hc⟩ := h
      subst hm; subst hc
      have hall : (⟨elems, c1, c1 + 1, c1 + 2, none⟩ : MeasureElem).allIds =
          childIds elems ++ [c1, c1 + 1, c1 + 2] := rfl
      refine ⟨by omega, ?_, ?_, k5⟩
      · intro i hi
        rw [hall] at hi
        rcases List.mem_append.mp hi with hi | hi
        · have h1 := k2 i hi
          rcases k6 i hi with h2 | h2 | h2
          · simp [childIds] at h2
          · exact ⟨h2, by omega⟩
          · obtain ⟨q, hq, _⟩ := h2
            exact Option.noConfusion hq
        · simp only [List.mem_cons, List.not_mem_nil, or_false] at hi
          rcases hi with hi | hi | hi <;> subst hi <;> exact ⟨by omega, by omega⟩
      · rw [hall]
        refine List.Nodup.append k3 ?_ ?_
        · simp only [List.nodup_cons, List.mem_cons, List.not_mem_nil, or_false,
            List.nodup_nil, and_true, not_or, not_false_eq_true]
          omega
        · intro a ha hb
          simp only [List.mem_cons, List.not_mem_nil, or_false] at hb
          have := k2 a ha
          rcases hb with hb | hb | hb <;> omega

/-- A successful `do_measure` run never decreases the counter. -/
theorem do_measure_mono (markup : List Char) (ctr : Nat) (res : Option MeasureElem × Nat)
    (h : do_measure markup ctr = .ok res) : ctr ≤ res.2 := by
  unfold do_measure at h
  cases hml : measureLoop markup (pySplit markup) [] none ctr with
  | error e => rw [hml] at h; exact Except.noConfusion h
  | ok r =>
    obtain ⟨elems, slur1, c1⟩ := r
    rw [hml] at h
    dsimp only [] at h
    obtain ⟨k1, _, _, _, _, _⟩ :=
      measureLoop_inv markup (pySplit markup) [] none ctr elems slur1 c1 hml
        (by intro i hi; simp [childIds] at hi) List.nodup_nil
        (fun q hq => Option.noConfusion hq)
        (by intro k s hk; simp at hk)
    by_cases hlen : elems.length = 0
    · rw [if_pos hlen] at h
      simp only [Except.ok.injEq] at h
      rw [← h]
      exact k1
    · rw [if_neg hlen] at h
      simp only [Except.ok.injEq] at h
      rw [← h]
      omega

end Ly2Mei

namespace Ly2Mei

/-- The driver loop allocates every measure's identifiers inside its own
counter window, so the identifiers of all assembled measures are
pairwise distinct. -/
theorem docLoop_inv (segs : List (List Char)) :
    ∀ (i ctr : Nat) (ms : List MeasureElem) (ctrF : Nat),
      docLoop segs i ctr = .ok (ms, ctrF) →
      ctr ≤ ctrF ∧ (∀ j ∈ (ms.map MeasureElem.allIds).flatten, ctr ≤ j ∧ j < ctrF) ∧
        (ms.map MeasureElem.allIds).flatten.Nodup := by
  induction segs with
  | nil =>
    intro i ctr ms ctrF h
    rw [docLoop] at h
    simp only [Except.ok.injEq, Prod.mk.injEq] at h
    obtain ⟨h1, h2⟩ := h
    subst h1; subst h2
    exact ⟨Nat.le_refl _, by simp, by simp⟩
  | cons seg rest ih =>
    intro i ctr ms ctrF h
    rw [docLoop] at h
    cases hdm : do_measure seg ctr with
    | error e => rw [hdm] at h; exact Except.noConfusion h
    | ok pr =>
      obtain ⟨mo, ctr1⟩ := pr
      rw [hdm] at h
      dsimp only [] at h
      cases hdl : docLoop rest (i + 1) ctr1 with
      | error e => rw [hdl] at h; exact Except.noConfusion h
      | ok pr2 =>
        obtain ⟨ms2, ctrF2⟩ := pr2
        rw [hdl] at h
        dsimp only [] at h
        obtain ⟨ih1, ih2, ih3⟩ := ih (i + 1) ctr1 ms2 ctrF2 hdl
        cases mo with
        | none =>
          simp only [Except.ok.injEq, Prod.mk.injEq] at h
          obtain ⟨h1, h2⟩ := h
          subst h1; subst h2
          have hmono := do_measure_mono seg ctr (none, ctr1) hdm
          exact ⟨Nat.le_trans hmono ih1,
            fun j hj => ⟨Nat.le_trans hmono (ih2 j hj).1, (ih2 j hj).2⟩, ih3⟩
        | some m =>
          simp only [Except.ok.injEq, Prod.mk.injEq] at h
          obtain ⟨h1, h2⟩ := h
          subst h1; subst h2
          obtain ⟨g1, g2, g3, g4⟩ := do_measure_inv seg ctr m ctr1 hdm
          have hre : (⟨m.children, m.layerId, m.staffId, m.id, some (i + 1)⟩ :
              MeasureElem).allIds = m.allIds := rfl
          refine ⟨Nat.le_trans g1 ih1, ?_, ?_⟩
          · intro j hj
            simp only [List.map_cons, List.flatten_cons, hre] at hj
            rcases List.mem_append.mp hj with hj | hj
            · obtain ⟨a1, a2⟩ := g2 j hj
              exact ⟨a1, by omega⟩
            · obtain ⟨b1, b2⟩ := ih2 j hj
              exact ⟨by omega, b2⟩
          · simp only [List.map_cons, List.flatten_cons, hre]
            refine List.Nodup.append g3 ih3 ?_
            intro a ha hb
            have w1 := (g2 a ha).2
            have w2 := (ih2 a hb).1
            omega

end Ly2Mei

namespace Ly2Mei

/-- C1 (amended): a token whose duration region holds no digit does not
make decoding fail — `do_note_block` succeeds with a `NoteElement`
whose duration is the empty string, and no input ever produces the
spec's `MalformedDurationError`. -/
theorem C1_amended_thm :
    (∀ (markup : List Char) (ctr : Nat) (elem : NoteElem) (ctr1 : Nat),
      (∀ c ∈ markup, ¬ c.isDigit) →
      do_note_block markup ctr = .ok (elem, ctr1) → elem.dur = "") ∧
    (∀ (markup : List Char) (ctr : Nat),
      do_note_block markup ctr ≠ .error .malformedDurationError) := by
  constructor
  · intro markup ctr elem ctr1 hnd h
    unfold do_note_block at h
    cases hp : do_pitch_class (sliceTo markup (find_lowest_of markup PITCH_ENDERS)) with
    | error e => rw [hp] at h; exact Except.noConfusion h
    | ok pr =>
      obtain ⟨pname, g⟩ := pr
      rw [hp] at h
      dsimp only [] at h
      have hloop : (octaveLoop g (markup.drop 1) 3 none).2.2 = none :=
        octaveLoop_no_digit g (markup.drop 1)
          (fun c hc => hnd c (List.drop_subset _ _ hc)) 3 none
      rw [hloop] at h
      dsimp only [] at h
      rw [durLoop_no_digit markup hnd] at h
      simp only [Except.ok.injEq, Prod.mk.injEq] at h
      obtain ⟨h1, h2⟩ := h
      subst h1
      rfl
  · exact do_note_block_no_malformed

/-- C1 witness: the bare token `c` holds no digit, decodes successfully,
and its duration is the empty string. -/
theorem C1_witness :
    (∀ c ∈ (['c'] : List Char), ¬ c.isDigit) ∧
    do_note_block ['c'] 0 = .ok (⟨"C", "", 3, 0, none, none, none⟩, 1) ∧
    (⟨"C", "", 3, 0, none, none, none⟩ : NoteElem).dur = "" :=
  ⟨by decide, rfl,
    C1_amended_thm.1 ['c'] 0 ⟨"C", "", 3, 0, none, none, none⟩ 1 (by decide) rfl⟩

end Ly2Mei

namespace Ly2Mei

/-- C5: a slur-start token processed while a slur is already open makes
the measure loop fail with the unterminated-slur error (the
`RuntimeWarning` carrying the stripped measure text); the open slur is
never silently overwritten. -/
theorem C5_slur_open_fails (text t : List Char) (rest : List (List Char))
    (elems : List LayerChild) (p : Nat × Nat) (ctr : Nat) (elem : NoteElem) (ctr1 : Nat)
    (hnb : do_note_block t ctr = .ok (elem, ctr1)) (hslur : elem.slur = some "i1") :
    measureLoop text (t :: rest) elems (some p) ctr =
      .error (.unterminatedSlurError (String.mk (pyStrip text))) := by
  rw [measureLoop, hnb]
  dsimp only []
  rw [if_pos hslur]

/-- C5 witness: the slur-start token `b4(` processed with a slur open. -/
theorem C5_witness :
    do_note_block ['b', '4', '('] 5 = .ok (⟨"B", "4", 3, 5, none, none, some "i1"⟩, 6) ∧
    (⟨"B", "4", 3, 5, none, none, some "i1"⟩ : NoteElem).slur = some "i1" ∧
    measureLoop ['x'] [['b', '4', '(']] [] (some (1, 0)) 5 =
      .error (.unterminatedSlurError (String.mk (pyStrip ['x']))) :=
  ⟨rfl, rfl, C5_slur_open_fails ['x'] ['b', '4', '('] [] [] (1, 0) 5
    ⟨"B", "4", 3, 5, none, none, some "i1"⟩ 6 rfl rfl⟩

/-- C6: in every successfully assembled measure, every slur element's
start and end references point at notes emitted earlier in the same
element sequence (so a slur appears only once closed, with both
identifiers set), and in particular both references are identifiers of
note elements of that same measure. -/
theorem C6_slur_refs (markup : List Char) (ctr : Nat) (m : MeasureElem) (ctr' : Nat)
    (h : do_measure markup ctr = .ok (some m, ctr')) :
    slursClosed m.children ∧
      ∀ (k : Nat) (s : SlurElem), m.children[k]? = some (.slur s) →
        s.startid ∈ noteIds m.children ∧ s.endid ∈ noteIds m.children := by
  have hQ := (do_measure_inv markup ctr m ctr' h).2.2.2
  refine ⟨hQ, fun k s hk => ?_⟩
  obtain ⟨h1, h2⟩ := hQ k s hk
  exact ⟨noteIds_take_subset _ _ h1, noteIds_take_subset _ _ h2⟩

/-- C6 witness: the measure assembled from `a4( b'16 c,,2)`. -/
theorem C6_witness :
    do_measure measure8_input 0 = .ok (some M8, 7) ∧
    (slursClosed M8.children ∧
      ∀ (k : Nat) (s : SlurElem), M8.children[k]? = some (.slur s) →
        s.startid ∈ noteIds M8.children ∧ s.endid ∈ noteIds M8.children) :=
  ⟨rfl, C6_slur_refs measure8_input 0 M8 7 rfl⟩

/-- C9: across a full document conversion no two emitted elements
(notes, slurs, layers, staves, measures) share an identifier — with the
`uuid` allocator modelled as a fresh counter (distinct calls yield
distinct values), every element consumes exactly one allocation and the
collected identifier list is duplicate-free. -/
theorem C9_unique_ids (source : List Char) (ctr : Nat) :
    (documentIds source ctr).Nodup := by
  rw [documentIds]
  cases h : convert_document source ctr with
  | error e => exact List.nodup_nil
  | ok pr =>
    obtain ⟨ms, ctrF⟩ := pr
    rw [convert_document] at h
    exact (docLoop_inv (pySplitOn '|' source) 0 ctr ms ctrF h).2.2

end Ly2Mei

namespace Ly2Mei

/-- A string accepted by the accidental-suffix table is one of its four
keys, so it is never the irregular suffix `s`. -/
theorem valid_accidentals_ne_s {x a : String} (h : _VALID_ACCIDENTALS x = some a) :
    x ≠ "s" := by
  intro hx
  rw [hx] at h
  have hnone : _VALID_ACCIDENTALS "s" = none := rfl
  rw [hnone] at h
  exact Option.noConfusion h

/-- C7: the pitch decoder maps each single letter a–g to the
corresponding uppercase letter with no accidental and r/R/s to
rest/full-rest/space; every regular suffix accepted by the accidental
table is mapped onto any valid base letter — is to sharp (`s`), es to
flat (`f`), isis to double-sharp (`ss`), eses to double-flat (`ff`) —
so `fis` gives (F, sharp), `des` gives (D, flat), `fisis` gives
(F, double-sharp) and `deses` gives (D, double-flat); any unrecognized
single character (such as `z`) fails with a pitch-class error carrying
that character; a suffix outside the regular table (the irregular
suffix `s` aside) fails with a pitch-class error carrying the whole
offending substring; and an unrecognized leading letter of a longer
token fails with a pitch-class error carrying that letter. -/
theorem C7_pitch_decoder :
    do_pitch_class ['a'] = .ok ("A", none) ∧
    do_pitch_class ['b'] = .ok ("B", none) ∧
    do_pitch_class ['c'] = .ok ("C", none) ∧
    do_pitch_class ['d'] = .ok ("D", none) ∧
    do_pitch_class ['e'] = .ok ("E", none) ∧
    do_pitch_class ['f'] = .ok ("F", none) ∧
    do_pitch_class ['g'] = .ok ("G", none) ∧
    do_pitch_class ['r'] = .ok ("rest", none) ∧
    do_pitch_class ['R'] = .ok ("REST", none) ∧
    do_pitch_class ['s'] = .ok ("space", none) ∧
    do_pitch_class ['f', 'i', 's'] = .ok ("F", some "s") ∧
    do_pitch_class ['d', 'e', 's'] = .ok ("D", some "f") ∧
    do_pitch_class ['f', 'i', 's', 'i', 's'] = .ok ("F", some "ss") ∧
    do_pitch_class ['d', 'e', 's', 'e', 's'] = .ok ("D", some "ff") ∧
    _VALID_ACCIDENTALS "is" = some "s" ∧
    _VALID_ACCIDENTALS "es" = some "f" ∧
    _VALID_ACCIDENTALS "isis" = some "ss" ∧
    _VALID_ACCIDENTALS "eses" = some "ff" ∧
    do_pitch_class ['z'] = .error (.pitchClassError "z") ∧
    (∀ c : Char, _VALID_NOTE_LETTERS c = none →
      do_pitch_class [c] = .error (.pitchClassError (String.mk [c]))) ∧
    (∀ (c c2 : Char) (rest : List Char) (p a : String),
      _VALID_NOTE_LETTERS c = some p →
      _VALID_ACCIDENTALS (String.mk (c2 :: rest)) = some a →
      do_pitch_class (c :: c2 :: rest) = .ok (p, some a)) ∧
    (∀ (c c2 : Char) (rest : List Char) (p : String),
      _VALID_NOTE_LETTERS c = some p →
      _VALID_ACCIDENTALS (String.mk (c2 :: rest)) = none →
      String.mk (c2 :: rest) ≠ "s" →
      do_pitch_class (c :: c2 :: rest) =
        .error (.pitchClassError (String.mk (c :: c2 :: rest)))) ∧
    (∀ (c c2 : Char) (rest : List Char),
      _VALID_NOTE_LETTERS c = none →
      do_pitch_class (c :: c2 :: rest) =
        .error (.pitchClassError (String.mk [c]))) := by
  refine ⟨rfl, rfl, rfl, rfl, rfl, rfl, rfl, rfl, rfl, rfl, rfl, rfl, rfl, rfl,
    rfl, rfl, rfl, rfl, rfl, ?_, ?_, ?_, ?_⟩
  · intro c hc
    rw [do_pitch_class_singleton, do_pitch_class_single, hc]
  · intro c c2 rest p a hc ha
    rw [do_pitch_class]
    have hsing : do_pitch_class_single c = .ok (p, none) := by
      rw [do_pitch_class_single, hc]
    rw [hsing]
    dsimp only []
    rw [if_neg (fun hand => valid_accidentals_ne_s ha hand.1)]
    rw [ha]
  · intro c c2 rest p hc ha hs
    rw [do_pitch_class]
    have hsing : do_pitch_class_single c = .ok (p, none) := by
      rw [do_pitch_class_single, hc]
    rw [hsing]
    dsimp only []
    rw [if_neg (fun hand => hs hand.1)]
    rw [ha]
  · intro c c2 rest hc
    rw [do_pitch_class]
    have hsing : do_pitch_class_single c = .error (.pitchClassError (String.mk [c])) := by
      rw [do_pitch_class_single, hc]
    rw [hsing]

/-- C7 witness: the unrecognized single letter `q`; the regular suffix
`es` on the letter `g` (token `ges`); the unrecognized suffix `q` on
the letter `c` (token `cq`, error carrying `cq`); and the unrecognized
leading letter of the token `zz` (error carrying `z`). -/
theorem C7_witness :
    _VALID_NOTE_LETTERS 'q' = none ∧
    do_pitch_class ['q'] = .error (.pitchClassError (String.mk ['q'])) ∧
    _VALID_NOTE_LETTERS 'g' = some "G" ∧
    _VALID_ACCIDENTALS (String.mk ['e', 's']) = some "f" ∧
    do_pitch_class ['g', 'e', 's'] = .ok ("G", some "f") ∧
    _VALID_NOTE_LETTERS 'c' = some "C" ∧
    _VALID_ACCIDENTALS (String.mk ['q']) = none ∧
    String.mk ['q'] ≠ "s" ∧
    do_pitch_class ['c', 'q'] = .error (.pitchClassError (String.mk ['c', 'q'])) ∧
    _VALID_NOTE_LETTERS 'z' = none ∧
    do_pitch_class ['z', 'z'] = .error (.pitchClassError (String.mk ['z'])) :=
  ⟨by decide,
    C7_pitch_decoder.2.2.2.2.2.2.2.2.2.2.2.2.2.2.2.2.2.2.2.1 'q' (by decide),
    by decide, by decide,
    C7_pitch_decoder.2.2.2.2.2.2.2.2.2.2.2.2.2.2.2.2.2.2.2.2.1 'g' 'e' ['s'] "G" "f"
      (by decide) (by decide),
    by decide, by decide, by decide,
    C7_pitch_decoder.2.2.2.2.2.2.2.2.2.2.2.2.2.2.2.2.2.2.2.2.2.1 'c' 'q' [] "C"
      (by decide) (by decide) (by decide),
    by decide,
    C7_pitch_decoder.2.2.2.2.2.2.2.2.2.2.2.2.2.2.2.2.2.2.2.2.2.2 'z' 'z' []
      (by decide)⟩

end Ly2Mei
